import Mathlib

/-!
Shallow embedding of the dependency-injection engine of this repository
(files src/ioclib/injector/injector.py and src/dipy/container.py), together
with theorems settling the frozen claims about it.

Python values are modelled as follows: an object is an `Obj` carrying an
identity tag and its truthiness; a Python expression of type `T | None` is an
`Option Obj` (with `none` standing for Python `None`, which is falsy).  A
generator-based context manager produced by one factory invocation is a
`Manager`: its `__enter__` either yields a value or raises, its `__exit__`
either returns or raises.  Exceptions are the type `Err`, with `Err.lookup`
standing for Python `LookupError` and `Err.other n` for any other exception.
-/

namespace Ioclib

/-- A Python object: an identity tag (so distinct constructions are
distinguishable) and its truthiness. -/
structure Obj where
  id : Nat
  truthy : Bool
deriving DecidableEq, Repr

/-- A Python value of type `T | None`: `none` is Python `None`. -/
abbrev V := Option Obj

/-- Python truthiness of a `T | None` value: `None` is falsy, an object is
as truthy as it says. -/
def isTruthy : V → Bool
  | Option.none => false
  | Option.some o => o.truthy

/-- Exceptions: `lookup` is Python `LookupError`; `other n` is any other
exception, tagged so distinct exceptions are distinguishable. -/
inductive Err where
  | lookup
  | other (n : Nat)
deriving DecidableEq, Repr

instance {ε α : Type} [DecidableEq ε] [DecidableEq α] : DecidableEq (Except ε α)
  | Except.ok a, Except.ok b =>
    if h : a = b then Decidable.isTrue (by rw [h])
    else Decidable.isFalse (by simp [h])
  | Except.ok _, Except.error _ => Decidable.isFalse (by simp)
  | Except.error _, Except.ok _ => Decidable.isFalse (by simp)
  | Except.error e, Except.error f =>
    if h : e = f then Decidable.isTrue (by rw [h])
    else Decidable.isFalse (by simp [h])

/-- One context manager as produced by one call of a `@contextmanager`
factory: entering runs the generator body up to `yield` (which may raise),
exiting runs the rest (which may raise).  The tag `mid` distinguishes
managers from different invocations. -/
structure Manager where
  mid : Nat
  enterResult : Except Err V
  exitResult : Except Err Unit
deriving DecidableEq, Repr

/-- The mutable state of a `SingletonDefinition` (injector.py, lines
106-110): the `_instance` slot and the `_manager` slot, both `None`
initially.  A `ContextDefinition` holds the same two slots in
context-local storage; within one execution context its `enter`/`exit`
act on the same shape of state, so the same structure is used for it. -/
structure SDef where
  inst : V
  mgr : Option Manager
deriving DecidableEq, Repr

/-- `SingletonDefinition.enter` (injector.py, lines 112-116):
`manager = self._factory()` (creating the generator context manager, which
does not run the body), then `self._manager = manager`, then
`self._instance = manager.__enter__()`.  If `__enter__` raises, the
exception propagates with `_manager` already assigned and `_instance`
untouched.  `ContextDefinition.enter` (lines 140-144) has the same shape.
Returns the new state and the propagating exception, if any. -/
def singletonEnter (m : Manager) (s : SDef) : SDef × Option Err :=
  let s1 : SDef := { s with mgr := some m }
  match m.enterResult with
  | Except.ok v => ({ s1 with inst := v }, none)
  | Except.error e => (s1, some e)

/-- `SingletonDefinition.exit` (injector.py, lines 118-124): if no manager
is stored, return; otherwise call `self._manager.__exit__(...)` and only
then clear both slots — when `__exit__` raises, the clearing statements
never run. -/
def singletonExit (s : SDef) : SDef × Option Err :=
  match s.mgr with
  | none => (s, none)
  | some m =>
    match m.exitResult with
    | Except.ok _ => ({ inst := none, mgr := none }, none)
    | Except.error e => (s, some e)

/-- `ContextDefinition.exit` (injector.py, lines 146-156): if no manager is
stored, return; otherwise call `manager.__exit__(...)` inside
`try ... finally`, so both slots are cleared whether or not `__exit__`
raises, and the exception still propagates. -/
def contextExit (s : SDef) : SDef × Option Err :=
  match s.mgr with
  | none => (s, none)
  | some m =>
    match m.exitResult with
    | Except.ok _ => ({ inst := none, mgr := none }, none)
    | Except.error e => ({ inst := none, mgr := none }, some e)

/-- State threaded through sequential resolutions of one definition: the
definition state plus the number of factory invocations so far (the
construction counter of the spec). -/
structure RunState where
  sdef : SDef
  count : Nat
deriving DecidableEq, Repr

/-- `Injector._get` (injector.py, lines 206-219), single-threaded run for
one already-found definition, parameterised by the factory (`factory n` is
the manager produced by the `n`-th invocation): fast path returns
`definition.instance` when it is truthy; otherwise, under the lock,
re-check truthiness and call `definition.enter()`; finally return
`definition.instance`.  An exception from `enter` propagates. -/
def injectorGetSeq (factory : Nat → Manager) (s : RunState) :
    Except Err V × RunState :=
  if isTruthy s.sdef.inst then (Except.ok s.sdef.inst, s)
  else
    -- lock acquired; the re-check `if not definition.instance`
    if isTruthy s.sdef.inst then (Except.ok s.sdef.inst, s)
    else
      match singletonEnter (factory s.count) s.sdef with
      | (sd, some e) => (Except.error e, ⟨sd, s.count + 1⟩)
      | (sd, none) => (Except.ok sd.inst, ⟨sd, s.count + 1⟩)

/-- A Python type annotation as it appears in a `Requirement`: a single
class (identified by a tag) or a `Union[...]` whose members are classes or
`None`. -/
inductive PyType where
  | cls (c : Nat)
  | unionOf (args : List (Option Nat))
deriving DecidableEq, Repr

/-- `Requirement.types` (injector.py, lines 45-54): for a `Union` the
non-`None` members; otherwise the single class. -/
def requirementTypes : PyType → List Nat
  | PyType.cls c => [c]
  | PyType.unionOf args => args.filterMap id

/-- `Requirement.issuperclass` (injector.py, lines 56-60) applied to a
definition's single produced class `c`: true when `c` is a subclass of any
member of `requirement.types`.  The ambient class hierarchy is the
parameter `sub` (`sub c t` models `issubclass(c, t)`). -/
def issuperclass (sub : Nat → Nat → Bool) (t : PyType) (c : Nat) : Bool :=
  (requirementTypes t).any (fun u => sub c u)

/-- A `Requirement` (injector.py, lines 38-43): optional discriminating
name, target type, diagnostic location, and the default — `none` stands
for the `void` sentinel (no default), `some v` for a present default
(which may itself be Python `None`). -/
structure Req where
  name : Option String
  type : PyType
  location : String
  default : Option V
deriving DecidableEq, Repr

/-- The registry view of one registered definition: its `_name` and its
produced class `definition.type`. -/
structure DefnMeta where
  dname : Option String
  dtype : Nat
deriving DecidableEq, Repr

/-- The match test of `Injector._get_definition` (injector.py, line 238):
`requirement.issuperclass(definition.type) and (definition._name is None
or definition._name == requirement.name)`. -/
def defnMatches (sub : Nat → Nat → Bool) (r : Req) (d : DefnMeta) : Bool :=
  issuperclass sub r.type d.dtype && (d.dname.isNone || d.dname == r.name)

/-- `Injector._get_definition` (injector.py, lines 234-242): linear scan of
the registry in registration order, returning the first definition passing
`defnMatches`, else `None`. -/
def getDefinition (sub : Nat → Nat → Bool) (r : Req) (defs : List DefnMeta) :
    Option DefnMeta :=
  defs.find? (defnMatches sub r)

/-- The observable behaviour of one fallback plugin called on a
requirement: it returns a value, raises `LookupError`, or raises some
other exception. -/
inductive PluginBehavior where
  | ret (v : V)
  | raiseLookup
  | raiseOther (n : Nat)
deriving DecidableEq, Repr

/-- `Injector._get_extra` (injector.py, lines 221-232): each plugin is
tried in order inside `suppress(LookupError)`; a returned truthy value is
returned at once, a falsy return or a raised `LookupError` moves on to the
next plugin, any other exception propagates.  After the loop,
`requirement.default` is returned when it is not the `void` sentinel;
otherwise `LookupError` is raised. -/
def getExtra (plugins : List PluginBehavior) (default : Option V) : Except Err V :=
  match plugins with
  | [] =>
    match default with
    | some d => Except.ok d
    | none => Except.error Err.lookup
  | p :: ps =>
    match p with
    | PluginBehavior.ret v => if isTruthy v then Except.ok v else getExtra ps default
    | PluginBehavior.raiseLookup => getExtra ps default
    | PluginBehavior.raiseOther n => Except.error (Err.other n)

/-- `Injector._get` seen from `Injectable.__call__`: when `_get_definition`
finds nothing it raises `LookupError` (injector.py, lines 209-210);
otherwise it runs the locked fetch `injectorGetSeq`. -/
def injectorGet (defnFound : Bool) (factory : Nat → Manager) (s : RunState) :
    Except Err V × RunState :=
  if defnFound then injectorGetSeq factory s
  else (Except.error Err.lookup, s)

/-- The resolution step of `Injectable.__call__` (injector.py, lines
274-278): `value = self._injector._get(requirement)` with
`except LookupError: value = self._injector._get_extra(...)` — any
`LookupError` escaping `_get`, including one raised by the factory during
construction, diverts to the fallback chain; other exceptions propagate. -/
def resolveParamValue (defnFound : Bool) (factory : Nat → Manager)
    (plugins : List PluginBehavior) (default : Option V) (s : RunState) :
    Except Err V × RunState :=
  match injectorGet defnFound factory s with
  | (Except.error Err.lookup, s2) => (getExtra plugins default, s2)
  | r => r

/-- `Definition.classes` (injector.py, lines 63-68): the subclass list
populated by `__init_subclass__` in definition order —
`SingletonDefinition` (scope `"singleton"`) then `ContextDefinition`
(scope `"context"`). -/
def definitionClasses : List String := ["singleton", "context"]

/-- A registered definition as recorded by the `define` decorators: the
scope of the class that was instantiated and the registration name. -/
structure RegDefn where
  scope : String
  rname : Option String
deriving DecidableEq, Repr

/-- `Injector.define` (injector.py, lines 168-186): scan
`Definition.classes` for a class whose `scope` equals the requested scope
and append an instance of it; when no class matches, the loop falls
through — nothing is appended and no exception is raised (the error
channel of the result is never used; it is present only to align the
shape with `containerDefine`). -/
def injectorDefine (scope : String) (name : Option String)
    (defs : List RegDefn) : Except Err (List RegDefn) :=
  match definitionClasses.find? (fun s => s == scope) with
  | some s => Except.ok (defs ++ [⟨s, name⟩])
  | none => Except.ok defs

/-- `Container.define` (container.py, lines 92-117): asserts
`scope in ['context', 'singleton']` at configuration time — an
unrecognized scope raises `AssertionError` (modelled `Err.other 0`) —
then appends the matching definition kind (registered with `name=None`). -/
def containerDefine (scope : String) (defs : List RegDefn) :
    Except Err (List RegDefn) :=
  if scope = "context" ∨ scope = "singleton" then
    Except.ok (defs ++ [⟨scope, none⟩])
  else Except.error (Err.other 0)

/-- One definition as seen by `Injector.release`: the identity of its
`_factory`, whether it is a `ContextDefinition` (whose `exit` clears in a
`finally`) or a `SingletonDefinition`, and its slot state. -/
structure Slot where
  fid : Nat
  isCtx : Bool
  st : SDef
deriving DecidableEq, Repr

/-- Dispatch of `definition.exit(...)` on the definition's class. -/
def slotExit (d : Slot) : SDef × Option Err :=
  if d.isCtx then contextExit d.st else singletonExit d.st

/-- The filter `not factories or definition._factory in factories`
(injector.py, line 190): `factories` equal to `None` or to an empty list
is falsy, so every definition is released; otherwise only those whose
factory is listed. -/
def filterHit (factories : Option (List Nat)) (fid : Nat) : Bool :=
  match factories with
  | none => true
  | some fs => fs.isEmpty || fs.contains fid

/-- `Injector.release` (injector.py, lines 188-191): walk the registry in
registration order and call `definition.exit(...)` on each definition
passing the filter.  The loop body is not protected: an exception raised
by one `exit` propagates out of the `for` loop, leaving every later
definition untouched. -/
def releaseRun (factories : Option (List Nat)) :
    List Slot → List Slot × Option Err
  | [] => ([], none)
  | d :: rest =>
    if filterHit factories d.fid then
      match slotExit d with
      | (st, some e) => ({ d with st := st } :: rest, some e)
      | (st, none) =>
        let (rest2, e2) := releaseRun factories rest
        ({ d with st := st } :: rest2, e2)
    else
      let (rest2, e2) := releaseRun factories rest
      (d :: rest2, e2)

/-- `Injector.entry` (injector.py, lines 193-201): run the body; when it
raises, call `release` with the error information and re-raise — so an
exception escaping `release` replaces the original one; when the body
returns normally, call `release` with no error information (an exception
escaping it propagates). -/
def entryExit (factories : Option (List Nat)) (body : Option Err)
    (defs : List Slot) : List Slot × Option Err :=
  match body with
  | some e =>
    match releaseRun factories defs with
    | (defs2, some t) => (defs2, some t)
    | (defs2, none) => (defs2, some e)
  | none => releaseRun factories defs

/-- A parameter kind, as in `inspect.Parameter`. -/
inductive PKind where
  | posOnly
  | posOrKw
  | kwOnly
deriving DecidableEq, Repr

/-- A `Requirement` used as a parameter default, before completion: its
explicit name and type, either of which may be unset. -/
structure ReqD where
  rname : Option String
  rtype : Option Nat
deriving DecidableEq, Repr

/-- One parameter of a wrapped callable: name, declared annotation, kind,
and its default when that default is a `Requirement`. -/
structure BParam where
  pname : String
  annotation : Nat
  kind : PKind
  reqDefault : Option ReqD
deriving DecidableEq, Repr

/-- Python `a or b` on an optional string: `None` and the empty string are
falsy. -/
def orStr (a : Option String) (b : String) : String :=
  match a with
  | some s => if s = "" then b else s
  | none => b

/-- Python `a or b` where `a` is an optional class (classes are truthy). -/
def orTy (a : Option Nat) (b : Nat) : Nat := a.getD b

/-- `kwargs[name]` lookup with `suppress(KeyError)`. -/
def lookupKw (kwargs : List (String × V)) (n : String) : Option V :=
  (kwargs.find? (fun kv => kv.1 == n)).map (fun kv => kv.2)

/-- `kwargs[name] = v`: overwrite the entry when present, insert it
otherwise. -/
def setKw (kwargs : List (String × V)) (n : String) (v : V) : List (String × V) :=
  if (kwargs.find? (fun kv => kv.1 == n)).isSome then
    kwargs.map (fun kv => if kv.1 == n then (n, v) else kv)
  else kwargs ++ [(n, v)]

/-- The two supply probes of `Injectable.__call__` (injector.py, lines
264-272) in source order: `arg = args[position]` under
`suppress(IndexError)` when the kind admits positional passing, and — only
when that left `arg` void — `arg = kwargs[parameter.name]` under
`suppress(KeyError)` when the kind admits keyword passing. -/
def suppliedArg (args : List V) (kwargs : List (String × V)) (idx : Nat)
    (p : BParam) : Option V :=
  let fromPos : Option V :=
    if p.kind = PKind.posOnly ∨ p.kind = PKind.posOrKw then args[idx]? else none
  match fromPos with
  | some v => some v
  | none =>
    if p.kind = PKind.kwOnly ∨ p.kind = PKind.posOrKw then lookupKw kwargs p.pname
    else none

/-- The binding loop of `Injectable.__call__` (injector.py, lines
251-280), with resolution abstracted as the oracle `resolve` (its
invocation pattern is what the claims are about).  For each parameter
whose default is a `Requirement`: probe `args[position]` (under
`suppress(IndexError)`) when the kind admits positional passing, then
`kwargs[parameter.name]` (under `suppress(KeyError)`) when the kind admits
keyword passing; only when both probes miss, complete the requirement
(`type or annotation`, `name or parameter.name`), resolve it, and store
the result in `kwargs[parameter.name]`.  The third component records, in
order, the names of the parameters that were resolved. -/
def bindLoop (resolve : Nat → String → V) (args : List V) :
    List BParam → Nat → List (String × V) → List String →
    List (String × V) × List String
  | [], _, kwargs, resolved => (kwargs, resolved)
  | p :: rest, idx, kwargs, resolved =>
    match p.reqDefault with
    | none => bindLoop resolve args rest (idx + 1) kwargs resolved
    | some r =>
      match suppliedArg args kwargs idx p with
      | some _ => bindLoop resolve args rest (idx + 1) kwargs resolved
      | none =>
        let v := resolve (orTy r.rtype p.annotation) (orStr r.rname p.pname)
        bindLoop resolve args rest (idx + 1) (setKw kwargs p.pname v)
          (resolved ++ [p.pname])

/-- `Injectable.__call__` (injector.py, lines 251-282): run the binding
loop from position `0` with an empty resolved-names record, then call
`self._function(*args, **kwargs)` — the positional arguments are passed
through unchanged, the keyword arguments are the mutated dictionary. -/
def injectableCall (resolve : Nat → String → V) (params : List BParam)
    (args : List V) (kwargs : List (String × V)) :
    List V × List (String × V) × List String :=
  let r := bindLoop resolve args params 0 kwargs []
  (args, r.1, r.2)

/-! ## Interleaving model of concurrent `Injector._get` on one singleton

Threads run the body of `Injector._get` (injector.py, lines 206-219) on a
shared `SingletonDefinition`, under sequentially consistent interleaving.
Each atomic step reads or writes the shared state once: the fast-path
read, acquiring `definition.lock`, the re-check under the lock, running
`definition.enter()` (the factory is assumed to yield normally; the
construction is `factory n` for the `n`-th invocation), releasing the
lock, and the final read `return definition.instance`. -/

/-- Program counter of one thread inside `Injector._get`. -/
inductive PC where
  | start
  | acquire
  | check
  | enterStep
  | unlock
  | retRead
  | done
deriving DecidableEq, Repr

/-- One thread: its program counter and, once finished, the value it
returned. -/
structure Thread where
  pc : PC
  ret : Option V
deriving DecidableEq, Repr

/-- The shared state: the definition's `_instance` slot, the holder of its
`_lock`, the number of `enter` calls so far, and all threads. -/
structure Sys where
  slot : V
  lockBy : Option Nat
  enters : Nat
  threads : Nat → Thread

/-- Pointwise update of the thread family. -/
def update (f : Nat → Thread) (i : Nat) (t : Thread) : Nat → Thread :=
  fun j => if j = i then t else f j

/-- One interleaved step: some thread advances one atomic action of
`Injector._get`. -/
inductive Step (factory : Nat → Obj) : Sys → Sys → Prop where
  | fastHit {s : Sys} (tid : Nat)
      (hpc : (s.threads tid).pc = PC.start) (hl : isTruthy s.slot = true) :
      Step factory s
        { s with threads := update s.threads tid ⟨PC.done, some s.slot⟩ }
  | fastMiss {s : Sys} (tid : Nat)
      (hpc : (s.threads tid).pc = PC.start) (hl : isTruthy s.slot = false) :
      Step factory s
        { s with threads := update s.threads tid ⟨PC.acquire, (s.threads tid).ret⟩ }
  | lockAcq {s : Sys} (tid : Nat)
      (hpc : (s.threads tid).pc = PC.acquire) (hl : s.lockBy = none) :
      Step factory s
        { s with lockBy := some tid,
                 threads := update s.threads tid ⟨PC.check, (s.threads tid).ret⟩ }
  | checkLive {s : Sys} (tid : Nat)
      (hpc : (s.threads tid).pc = PC.check) (hl : isTruthy s.slot = true) :
      Step factory s
        { s with threads := update s.threads tid ⟨PC.unlock, (s.threads tid).ret⟩ }
  | checkDead {s : Sys} (tid : Nat)
      (hpc : (s.threads tid).pc = PC.check) (hl : isTruthy s.slot = false) :
      Step factory s
        { s with threads := update s.threads tid ⟨PC.enterStep, (s.threads tid).ret⟩ }
  | enterRun {s : Sys} (tid : Nat)
      (hpc : (s.threads tid).pc = PC.enterStep) :
      Step factory s
        { slot := some (factory s.enters), lockBy := s.lockBy,
          enters := s.enters + 1,
          threads := update s.threads tid ⟨PC.unlock, (s.threads tid).ret⟩ }
  | unlockRun {s : Sys} (tid : Nat)
      (hpc : (s.threads tid).pc = PC.unlock) :
      Step factory s
        { s with lockBy := none,
                 threads := update s.threads tid ⟨PC.retRead, (s.threads tid).ret⟩ }
  | retRun {s : Sys} (tid : Nat)
      (hpc : (s.threads tid).pc = PC.retRead) :
      Step factory s
        { s with threads := update s.threads tid ⟨PC.done, some s.slot⟩ }

/-- The initial state: empty slot, free lock, no constructions, every
thread about to call `Injector._get`. -/
def initSys : Sys :=
  { slot := none, lockBy := none, enters := 0,
    threads := fun _ => ⟨PC.start, none⟩ }

/-- States reachable by interleaving any number of threads. -/
def Reachable (factory : Nat → Obj) (s : Sys) : Prop :=
  Relation.ReflTransGen (Step factory) initSys s

/-- A thread holding the definition lock is at the re-check, the
construction, or the release of the lock. -/
def LockStage (p : PC) : Prop :=
  p = PC.check ∨ p = PC.enterStep ∨ p = PC.unlock

/-- The inductive invariant of the interleaving model, for a factory whose
first construction yields a truthy instance. -/
def Inv (factory : Nat → Obj) (s : Sys) : Prop :=
  ((s.slot = none ∧ s.enters = 0) ∨
    (s.slot = some (factory 0) ∧ s.enters = 1)) ∧
  (∀ tid, LockStage (s.threads tid).pc → s.lockBy = some tid) ∧
  (∀ tid, (s.threads tid).pc = PC.enterStep → s.slot = none) ∧
  (∀ tid, (s.threads tid).pc = PC.unlock ∨ (s.threads tid).pc = PC.retRead →
    s.slot = some (factory 0)) ∧
  (∀ tid, (s.threads tid).pc = PC.done →
    (s.threads tid).ret = some (some (factory 0)))

/-- The first plugin answer that is truthy, in list order. -/
def firstTruthy (plugins : List PluginBehavior) : Option V :=
  plugins.findSome? (fun p =>
    match p with
    | PluginBehavior.ret v => if isTruthy v then some v else none
    | _ => none)

/-- Written from the words of the spec for comparison with `getExtra`:
the first fallback that yields a (truthy) value wins; if none yields a
value, the default is used when present; otherwise a lookup error. -/
def specFallbackOrder (plugins : List PluginBehavior) (default : Option V) :
    Except Err V :=
  match firstTruthy plugins with
  | some v => Except.ok v
  | none =>
    match default with
    | some d => Except.ok d
    | none => Except.error Err.lookup

/-- The registry after a release pass that reached every matching
definition: each matching slot replaced by its post-exit state. -/
def releasedAll (factories : Option (List Nat)) (defs : List Slot) : List Slot :=
  defs.map (fun d =>
    if filterHit factories d.fid then { d with st := (slotExit d).1 } else d)

/-- A factory whose managers always enter successfully, yielding
`vals n` on the `n`-th invocation, and always exit successfully. -/
def mgrFac (vals : Nat → V) : Nat → Manager :=
  fun n => ⟨n, Except.ok (vals n), Except.ok ()⟩

/-- A factory yielding a fresh falsy instance on every construction. -/
def falsyFac : Nat → Obj := fun n => ⟨n, false⟩

/-- A factory yielding a fresh truthy instance on every construction. -/
def truthyFac : Nat → Obj := fun n => ⟨n, true⟩

/-- The discrete class hierarchy: a class is a subclass only of itself. -/
def subRefl : Nat → Nat → Bool := fun a b => a == b

/-- A live singleton definition whose teardown raises `Err.other 9`. -/
def slotBad : Slot :=
  ⟨0, false, ⟨some ⟨0, true⟩,
    some ⟨0, Except.ok (some ⟨0, true⟩), Except.error (Err.other 9)⟩⟩⟩

/-- A live singleton definition whose teardown succeeds. -/
def slotGood : Slot :=
  ⟨1, false, ⟨some ⟨1, true⟩,
    some ⟨1, Except.ok (some ⟨1, true⟩), Except.ok ()⟩⟩⟩

theorem update_eq {f : Nat → Thread} {i : Nat} {t : Thread} :
    update f i t i = t := if_pos rfl

theorem update_ne {f : Nat → Thread} {i j : Nat} {t : Thread} (h : j ≠ i) :
    update f i t j = f j := if_neg h

theorem inv_init (factory : Nat → Obj) : Inv factory initSys := by
  refine ⟨Or.inl ⟨rfl, rfl⟩, ?_, ?_, ?_, ?_⟩ <;>
    intro tid <;> simp [initSys, LockStage]

theorem inv_preserved {factory : Nat → Obj} (ht : (factory 0).truthy = true)
    {s s2 : Sys} (hinv : Inv factory s) (hstep : Step factory s s2) :
    Inv factory s2 := by
  obtain ⟨hslot, hlock, hent, hlive, hdone⟩ := hinv
  cases hstep with
  | fastHit tid hpc hl =>
    have hs : s.slot = some (factory 0) := by
      rcases hslot with ⟨h1, _⟩ | ⟨h1, _⟩
      · rw [h1] at hl; simp [isTruthy] at hl
      · exact h1
    refine ⟨hslot, ?_, ?_, ?_, ?_⟩ <;> intro tid2 h2 <;> by_cases e : tid2 = tid
    · subst e; simp [update, LockStage] at h2
    · simp [update, e] at h2; exact hlock tid2 h2
    · subst e; simp [update] at h2
    · simp [update, e] at h2; exact hent tid2 h2
    · subst e; simp [update] at h2
    · simp [update, e] at h2; exact hlive tid2 h2
    · subst e; simp [update, hs]
    · simp [update, e] at h2 ⊢; exact hdone tid2 h2
  | fastMiss tid hpc hl =>
    refine ⟨hslot, ?_, ?_, ?_, ?_⟩ <;> intro tid2 h2 <;> by_cases e : tid2 = tid
    · subst e; simp [update, LockStage] at h2
    · simp [update, e] at h2; exact hlock tid2 h2
    · subst e; simp [update] at h2
    · simp [update, e] at h2; exact hent tid2 h2
    · subst e; simp [update] at h2
    · simp [update, e] at h2; exact hlive tid2 h2
    · subst e; simp [update] at h2
    · simp [update, e] at h2 ⊢; exact hdone tid2 h2
  | lockAcq tid hpc hl =>
    refine ⟨hslot, ?_, ?_, ?_, ?_⟩ <;> intro tid2 h2 <;> by_cases e : tid2 = tid
    · subst e; rfl
    · exfalso; simp [update, e] at h2
      have := hlock tid2 h2; rw [hl] at this; exact Option.noConfusion this
    · subst e; simp [update] at h2
    · simp [update, e] at h2; exact hent tid2 h2
    · subst e; simp [update] at h2
    · simp [update, e] at h2; exact hlive tid2 h2
    · subst e; simp [update] at h2
    · simp [update, e] at h2 ⊢; exact hdone tid2 h2
  | checkLive tid hpc hl =>
    have hs : s.slot = some (factory 0) := by
      rcases hslot with ⟨h1, _⟩ | ⟨h1, _⟩
      · rw [h1] at hl; simp [isTruthy] at hl
      · exact h1
    refine ⟨hslot, ?_, ?_, ?_, ?_⟩ <;> intro tid2 h2 <;> by_cases e : tid2 = tid
    · subst e; exact hlock tid2 (Or.inl hpc)
    · simp [update, e] at h2; exact hlock tid2 h2
    · subst e; simp [update] at h2
    · simp [update, e] at h2; exact hent tid2 h2
    · exact hs
    · simp [update, e] at h2; exact hlive tid2 h2
    · subst e; simp [update] at h2
    · simp [update, e] at h2 ⊢; exact hdone tid2 h2
  | checkDead tid hpc hl =>
    have hs : s.slot = none := by
      rcases hslot with ⟨h1, _⟩ | ⟨h1, _⟩
      · exact h1
      · rw [h1] at hl; simp [isTruthy, ht] at hl
    refine ⟨hslot, ?_, ?_, ?_, ?_⟩ <;> intro tid2 h2 <;> by_cases e : tid2 = tid
    · subst e; exact hlock tid2 (Or.inl hpc)
    · simp [update, e] at h2; exact hlock tid2 h2
    · exact hs
    · simp [update, e] at h2; exact hent tid2 h2
    · subst e; simp [update] at h2
    · simp [update, e] at h2; exact hlive tid2 h2
    · subst e; simp [update] at h2
    · simp [update, e] at h2 ⊢; exact hdone tid2 h2
  | enterRun tid hpc =>
    have hn : s.slot = none := hent tid hpc
    have he0 : s.enters = 0 := by
      rcases hslot with ⟨_, h1⟩ | ⟨h1, _⟩
      · exact h1
      · rw [hn] at h1; exact Option.noConfusion h1
    refine ⟨Or.inr ⟨by rw [he0], by rw [he0]⟩, ?_, ?_, ?_, ?_⟩ <;>
      intro tid2 h2 <;> by_cases e : tid2 = tid
    · subst e; exact hlock tid2 (Or.inr (Or.inl hpc))
    · simp [update, e] at h2; exact hlock tid2 h2
    · subst e; simp [update] at h2
    · exfalso; simp [update, e] at h2
      have ha := hlock tid2 (Or.inr (Or.inl h2))
      have hb := hlock tid (Or.inr (Or.inl hpc))
      rw [ha] at hb; exact e (Option.some.inj hb)
    · show some (factory s.enters) = some (factory 0); rw [he0]
    · show some (factory s.enters) = some (factory 0); rw [he0]
    · subst e; simp [update] at h2
    · simp [update, e] at h2 ⊢; exact hdone tid2 h2
  | unlockRun tid hpc =>
    refine ⟨hslot, ?_, ?_, ?_, ?_⟩ <;> intro tid2 h2 <;> by_cases e : tid2 = tid
    · subst e; simp [update, LockStage] at h2
    · exfalso; simp [update, e] at h2
      have ha := hlock tid2 h2
      have hb := hlock tid (Or.inr (Or.inr hpc))
      rw [ha] at hb; exact e (Option.some.inj hb)
    · subst e; simp [update] at h2
    · simp [update, e] at h2; exact hent tid2 h2
    · exact hlive tid (Or.inl hpc)
    · simp [update, e] at h2; exact hlive tid2 h2
    · subst e; simp [update] at h2
    · simp [update, e] at h2 ⊢; exact hdone tid2 h2
  | retRun tid hpc =>
    have hs : s.slot = some (factory 0) := hlive tid (Or.inr hpc)
    refine ⟨hslot, ?_, ?_, ?_, ?_⟩ <;> intro tid2 h2 <;> by_cases e : tid2 = tid
    · subst e; simp [update, LockStage] at h2
    · simp [update, e] at h2; exact hlock tid2 h2
    · subst e; simp [update] at h2
    · simp [update, e] at h2; exact hent tid2 h2
    · subst e; simp [update] at h2
    · simp [update, e] at h2; exact hlive tid2 h2
    · subst e; simp [update, hs]
    · simp [update, e] at h2 ⊢; exact hdone tid2 h2

theorem inv_reachable {factory : Nat → Obj} (ht : (factory 0).truthy = true)
    {s : Sys} (h : Reachable factory s) : Inv factory s := by
  induction h with
  | refl => exact inv_init factory
  | tail _ hstep ih => exact inv_preserved ht ih hstep

/-! ## Theorems settling the claims -/

theorem getExtra_eq_spec (plugins : List PluginBehavior) (default : Option V)
    (hp : ∀ p ∈ plugins, ∀ n, p ≠ PluginBehavior.raiseOther n) :
    getExtra plugins default = specFallbackOrder plugins default := by
  induction plugins with
  | nil => cases default <;> rfl
  | cons p ps ih =>
    have hps : ∀ q ∈ ps, ∀ n, q ≠ PluginBehavior.raiseOther n :=
      fun q hq => hp q (List.mem_cons_of_mem _ hq)
    cases p with
    | ret v =>
      by_cases hv : isTruthy v = true
      · simp [getExtra, specFallbackOrder, firstTruthy, hv]
      · rw [Bool.not_eq_true] at hv
        have hg : getExtra (PluginBehavior.ret v :: ps) default =
            getExtra ps default := by simp [getExtra, hv]
        have hs : specFallbackOrder (PluginBehavior.ret v :: ps) default =
            specFallbackOrder ps default := by
          simp [specFallbackOrder, firstTruthy, hv]
        rw [hg, hs]; exact ih hps
    | raiseLookup =>
      have hs : specFallbackOrder (PluginBehavior.raiseLookup :: ps) default =
          specFallbackOrder ps default := by
        simp [specFallbackOrder, firstTruthy]
      rw [show getExtra (PluginBehavior.raiseLookup :: ps) default =
          getExtra ps default from rfl, hs]
      exact ih hps
    | raiseOther n => exact absurd rfl (hp _ (List.mem_cons_self _ _) n)

/-- Claim C3 (corrected).  The claim held that both SINGLETON and CONTEXT
definitions clear their stored value/teardown pair unconditionally on
exit, even when the teardown raises.  The code bears this out only for
`ContextDefinition.exit` (whose `try/finally` clears both context slots
whether or not `__exit__` raises); `SingletonDefinition.exit` clears only
after a successful `__exit__`, so a raising teardown leaves the stored
pair in place and the definition still looks live.  When no manager is
stored, both exits are no-ops. -/
theorem claim_C3_exit_clears :
    (∀ s : SDef, ∀ m : Manager, s.mgr = some m →
      (contextExit s).1 = ⟨none, none⟩) ∧
    (∀ s : SDef, ∀ m : Manager, s.mgr = some m → m.exitResult = Except.ok () →
      singletonExit s = (⟨none, none⟩, none)) ∧
    (∀ s : SDef, ∀ m : Manager, ∀ e : Err, s.mgr = some m →
      m.exitResult = Except.error e → singletonExit s = (s, some e)) ∧
    (∀ s : SDef, s.mgr = none →
      singletonExit s = (s, none) ∧ contextExit s = (s, none)) := by
  refine ⟨?_, ?_, ?_, ?_⟩
  · intro s m hm
    cases hx : m.exitResult <;> simp [contextExit, hm, hx]
  · intro s m hm hx
    simp [singletonExit, hm, hx]
  · intro s m e hm hx
    simp [singletonExit, hm, hx]
  · intro s hm
    constructor <;> simp [singletonExit, contextExit, hm]

/-- Witness for `claim_C3_exit_clears`: each hypothesis discharged at a
concrete definition state. -/
theorem claim_C3_witness :
    ((⟨some ⟨5, true⟩, some ⟨0, Except.ok (some ⟨5, true⟩),
        Except.error (Err.other 3)⟩⟩ : SDef).mgr =
      some ⟨0, Except.ok (some ⟨5, true⟩), Except.error (Err.other 3)⟩) ∧
    (contextExit ⟨some ⟨5, true⟩, some ⟨0, Except.ok (some ⟨5, true⟩),
        Except.error (Err.other 3)⟩⟩).1 = ⟨none, none⟩ ∧
    singletonExit ⟨some ⟨5, true⟩, some ⟨1, Except.ok (some ⟨5, true⟩),
        Except.ok ()⟩⟩ = (⟨none, none⟩, none) ∧
    singletonExit ⟨none, none⟩ = (⟨none, none⟩, none) :=
  ⟨rfl,
   claim_C3_exit_clears.1 _ _ rfl,
   claim_C3_exit_clears.2.1 _ ⟨1, Except.ok (some ⟨5, true⟩), Except.ok ()⟩ rfl rfl,
   (claim_C3_exit_clears.2.2.2 ⟨none, none⟩ rfl).1⟩

/-- Counterexample to claim C3 as stated: a SINGLETON definition whose
teardown raises is left untouched by `exit` — the stored instance and
manager are still present afterwards, so the definition still looks
live. -/
theorem claim_C3_counterexample :
    singletonExit ⟨some ⟨5, true⟩, some ⟨0, Except.ok (some ⟨5, true⟩),
        Except.error (Err.other 3)⟩⟩ =
      (⟨some ⟨5, true⟩, some ⟨0, Except.ok (some ⟨5, true⟩),
        Except.error (Err.other 3)⟩⟩, some (Err.other 3)) := by decide

/-- Claim C4 (corrected).  When the factory raises during construction,
the exception does propagate unmodified to the resolving caller and no
instance is stored (`_instance` keeps its prior value), but the claim that
no partial state is retained fails: `self._manager = manager` runs before
`manager.__enter__()`, so the manager/teardown handle of the failed
construction stays stored on the definition. -/
theorem claim_C4_construction_failure (factory : Nat → Manager) (s : RunState)
    (e : Err) (henter : (factory s.count).enterResult = Except.error e)
    (hs : isTruthy s.sdef.inst = false) :
    injectorGetSeq factory s =
      (Except.error e, ⟨⟨s.sdef.inst, some (factory s.count)⟩, s.count + 1⟩) := by
  simp [injectorGetSeq, hs, singletonEnter, henter]

/-- Witness for `claim_C4_construction_failure` at a concrete failing
factory. -/
theorem claim_C4_witness :
    ((fun _ : Nat => (⟨5, Except.error (Err.other 2), Except.ok ()⟩ : Manager)) 3).enterResult =
      Except.error (Err.other 2) ∧
    isTruthy ((⟨⟨none, none⟩, 3⟩ : RunState)).sdef.inst = false ∧
    injectorGetSeq (fun _ => ⟨5, Except.error (Err.other 2), Except.ok ()⟩)
        ⟨⟨none, none⟩, 3⟩ =
      (Except.error (Err.other 2),
       ⟨⟨none, some ⟨5, Except.error (Err.other 2), Except.ok ()⟩⟩, 4⟩) :=
  ⟨rfl, rfl, claim_C4_construction_failure _ _ _ rfl rfl⟩

/-- Counterexample to claim C4 as stated: after a failed construction the
definition is not in its prior uninitialized state — the teardown handle
(manager) of the failed construction is still stored. -/
theorem claim_C4_counterexample :
    (injectorGetSeq (fun _ => ⟨0, Except.error (Err.other 7), Except.ok ()⟩)
        ⟨⟨none, none⟩, 0⟩).2.sdef.mgr =
      some ⟨0, Except.error (Err.other 7), Except.ok ()⟩ ∧
    (injectorGetSeq (fun _ => ⟨0, Except.error (Err.other 7), Except.ok ()⟩)
        ⟨⟨none, none⟩, 0⟩).1 = Except.error (Err.other 7) := by decide

/-- Claim C9 (confirmed).  `Injector._get` gates both the fast path and
the locked re-check on the truthiness of `definition.instance`, so a
definition whose factory yields only falsy values is treated as
uninitialized by every resolution: each call invokes the factory again
(the construction counter increments), the value returned is the fresh
construction of this very call (never a cached one), and the state is
falsy again afterwards — the single-construction guarantee holds only for
truthy instances. -/
theorem claim_C9_falsy_never_cached (vals : Nat → V) (s : RunState)
    (hfalsy : ∀ n, isTruthy (vals n) = false)
    (hs : isTruthy s.sdef.inst = false) :
    (injectorGetSeq (mgrFac vals) s).1 = Except.ok (vals s.count) ∧
    (injectorGetSeq (mgrFac vals) s).2.count = s.count + 1 ∧
    isTruthy (injectorGetSeq (mgrFac vals) s).2.sdef.inst = false := by
  simp [injectorGetSeq, hs, singletonEnter, mgrFac, hfalsy]

/-- Witness for `claim_C9_falsy_never_cached`: a factory yielding Python
`None` every time, resolved from the uninitialized state. -/
theorem claim_C9_witness :
    (∀ n : Nat, isTruthy ((fun _ => (none : V)) n) = false) ∧
    isTruthy ((⟨⟨none, none⟩, 0⟩ : RunState)).sdef.inst = false ∧
    ((injectorGetSeq (mgrFac (fun _ => none)) ⟨⟨none, none⟩, 0⟩).1 =
        Except.ok ((fun _ => (none : V)) 0) ∧
      (injectorGetSeq (mgrFac (fun _ => none)) ⟨⟨none, none⟩, 0⟩).2.count = 0 + 1 ∧
      isTruthy (injectorGetSeq (mgrFac (fun _ => none))
        ⟨⟨none, none⟩, 0⟩).2.sdef.inst = false) :=
  ⟨fun _ => rfl, rfl,
   claim_C9_falsy_never_cached (fun _ => none) ⟨⟨none, none⟩, 0⟩ (fun _ => rfl) rfl⟩

/-- Claim C10 (confirmed).  In `Injector._get_extra`, a plugin raising
`LookupError` is silently skipped, a plugin returning a falsy value is
treated as yielding nothing, and — when no plugin raises any other
exception — the result is the first truthy plugin value, else the
requirement's default when it differs from the no-default sentinel, else
a raised `LookupError`. -/
theorem claim_C10_plugin_edge_behavior :
    (∀ ps : List PluginBehavior, ∀ default : Option V,
      getExtra (PluginBehavior.raiseLookup :: ps) default = getExtra ps default) ∧
    (∀ ps : List PluginBehavior, ∀ default : Option V, ∀ v : V,
      isTruthy v = false →
      getExtra (PluginBehavior.ret v :: ps) default = getExtra ps default) ∧
    (∀ plugins : List PluginBehavior, ∀ default : Option V,
      (∀ p ∈ plugins, ∀ n, p ≠ PluginBehavior.raiseOther n) →
      getExtra plugins default = specFallbackOrder plugins default) := by
  refine ⟨fun ps default => rfl, ?_, fun plugins default hp => getExtra_eq_spec plugins default hp⟩
  intro ps default v hv
  simp [getExtra, hv]

/-- Witness for `claim_C10_plugin_edge_behavior`: the chain
`[raise LookupError, return falsy, return truthy]` resolves to the truthy
value. -/
theorem claim_C10_witness :
    (isTruthy (none : V) = false) ∧
    (∀ p ∈ [PluginBehavior.raiseLookup, PluginBehavior.ret none,
        PluginBehavior.ret (some ⟨4, true⟩)], ∀ n, p ≠ PluginBehavior.raiseOther n) ∧
    getExtra (PluginBehavior.ret (none : V) :: [PluginBehavior.raiseLookup]) none =
      getExtra [PluginBehavior.raiseLookup] none ∧
    getExtra [PluginBehavior.raiseLookup, PluginBehavior.ret none,
        PluginBehavior.ret (some ⟨4, true⟩)] none =
      specFallbackOrder [PluginBehavior.raiseLookup, PluginBehavior.ret none,
        PluginBehavior.ret (some ⟨4, true⟩)] none :=
  ⟨rfl,
   by intro p hp n; simp only [List.mem_cons, List.not_mem_nil, or_false] at hp
      rcases hp with h | h | h <;> subst h <;> simp,
   claim_C10_plugin_edge_behavior.2.1 [PluginBehavior.raiseLookup] none none rfl,
   claim_C10_plugin_edge_behavior.2.2 _ none
     (by intro p hp n; simp only [List.mem_cons, List.not_mem_nil, or_false] at hp
         rcases hp with h | h | h <;> subst h <;> simp)⟩

/-- Claim C7 (corrected).  Only `Container.define` (dipy) fails fast on an
unrecognized scope, via its assertion.  `Injector.define` (ioclib) scans
`Definition.classes` for a matching scope and, finding none, silently
falls through: nothing is registered and no error is raised. -/
theorem claim_C7_scope_validation (scope : String) (name : Option String)
    (defs defs2 : List RegDefn)
    (h1 : scope ≠ "singleton") (h2 : scope ≠ "context") :
    injectorDefine scope name defs = Except.ok defs ∧
    containerDefine scope defs2 = Except.error (Err.other 0) := by
  constructor
  · have e1 : ("singleton" == scope) = false := by
      simp only [beq_eq_false_iff_ne]
      exact fun h => h1 h.symm
    have e2 : ("context" == scope) = false := by
      simp only [beq_eq_false_iff_ne]
      exact fun h => h2 h.symm
    simp [injectorDefine, definitionClasses, List.find?, e1, e2]
  · simp [containerDefine, h1, h2]

/-- Witness for `claim_C7_scope_validation` at the spec's own third scope
name, which neither implementation recognizes. -/
theorem claim_C7_witness :
    ("transient" ≠ "singleton" ∧ "transient" ≠ "context") ∧
    injectorDefine "transient" (some "n") [⟨"singleton", none⟩] =
      Except.ok [⟨"singleton", none⟩] ∧
    containerDefine "transient" [] = Except.error (Err.other 0) :=
  ⟨⟨by decide, by decide⟩,
   claim_C7_scope_validation "transient" (some "n") [⟨"singleton", none⟩] []
     (by decide) (by decide)⟩

/-- Counterexample to claim C7 as stated: registering with the
unrecognized scope `"transient"` on the ioclib `Injector` surfaces no
error and registers nothing — the registry is returned unchanged. -/
theorem claim_C7_counterexample :
    injectorDefine "transient" none [] = Except.ok [] := by decide

theorem releaseRun_all_ok (factories : Option (List Nat)) (defs : List Slot)
    (h : ∀ d ∈ defs, filterHit factories d.fid = true → (slotExit d).2 = none) :
    releaseRun factories defs = (releasedAll factories defs, none) := by
  induction defs with
  | nil => rfl
  | cons d rest ih =>
    have hrest := ih (fun d2 hm hf => h d2 (List.mem_cons_of_mem _ hm) hf)
    by_cases hf : filterHit factories d.fid = true
    · have hd := h d (List.mem_cons_self _ _) hf
      rcases hx : slotExit d with ⟨st, e2⟩
      rw [hx] at hd; simp at hd; subst hd
      simp [releaseRun, hf, hx, hrest, releasedAll]
    · rw [Bool.not_eq_true] at hf
      simp [releaseRun, hf, hrest, releasedAll]

/-- Claim C2 (corrected).  The claim held that a teardown failure does not
skip the release of later Definitions and that the original propagating
error re-propagates after all releases.  The code guarantees this only
when no matching teardown raises: then every matching Definition is
released in registration order and the original error (or normal exit)
propagates.  The release loop itself is unprotected, so a raising
teardown aborts the pass (shown by the counterexample). -/
theorem claim_C2_release_pass (factories : Option (List Nat))
    (defs : List Slot) (e : Err)
    (h : ∀ d ∈ defs, filterHit factories d.fid = true → (slotExit d).2 = none) :
    entryExit factories (some e) defs = (releasedAll factories defs, some e) ∧
    entryExit factories none defs = (releasedAll factories defs, none) := by
  have hr := releaseRun_all_ok factories defs h
  constructor
  · simp [entryExit, hr]
  · simp [entryExit, hr]

/-- Witness for `claim_C2_release_pass`: one live definition with a
succeeding teardown, a scope exiting on the error `Err.other 1`. -/
theorem claim_C2_witness :
    (∀ d ∈ [slotGood], filterHit none d.fid = true → (slotExit d).2 = none) ∧
    (entryExit none (some (Err.other 1)) [slotGood] =
        (releasedAll none [slotGood], some (Err.other 1)) ∧
      entryExit none none [slotGood] = (releasedAll none [slotGood], none)) :=
  ⟨by decide, claim_C2_release_pass none [slotGood] (Err.other 1) (by decide)⟩

/-- Counterexample to claim C2 as stated: the scope exits on the original
error `Err.other 1`; the first definition's teardown raises `Err.other 9`,
which aborts the release loop — the second definition is never released
(it keeps its stored instance and manager) — and the teardown error, not
the original error, propagates. -/
theorem claim_C2_counterexample :
    entryExit none (some (Err.other 1)) [slotBad, slotGood] =
      ([slotBad, slotGood], some (Err.other 9)) := by decide

/-- Claim C5 (corrected).  Registry lookup does return the first
Definition, in registration order, passing the type-compatibility test
and the name test — but the name test is
`definition._name is None or definition._name == requirement.name`: a
Definition with a name set matches only a Requirement with the identical
name.  A Requirement whose name is unset (`None`) does not match a named
Definition (the counterexample), contrary to the claim. -/
theorem claim_C5_registry_lookup (sub : Nat → Nat → Bool) (r : Req)
    (defs : List DefnMeta) (d : DefnMeta) :
    getDefinition sub r defs = some d ↔
      ∃ l1 l2, defs = l1 ++ d :: l2 ∧ defnMatches sub r d = true ∧
        ∀ d2 ∈ l1, defnMatches sub r d2 = false := by
  induction defs with
  | nil =>
    simp only [getDefinition, List.find?]
    constructor
    · intro h; exact Option.noConfusion h
    · rintro ⟨l1, l2, hsplit, -, -⟩
      exact absurd hsplit (List.append_ne_nil_of_right_ne_nil l1 (by simp)).symm
  | cons a rest ih =>
    by_cases ha : defnMatches sub r a = true
    · rw [getDefinition, List.find?_cons_of_pos _ ha]
      constructor
      · intro h
        obtain rfl : a = d := Option.some.inj h
        exact ⟨[], rest, rfl, ha, by simp⟩
      · rintro ⟨l1, l2, hsplit, hd, hnone⟩
        cases l1 with
        | nil =>
          simp only [List.nil_append, List.cons.injEq] at hsplit
          rw [hsplit.1]
        | cons x xs =>
          simp only [List.cons_append, List.cons.injEq] at hsplit
          have hx := hnone x (List.mem_cons_self _ _)
          rw [← hsplit.1] at hx
          rw [ha] at hx
          exact Bool.noConfusion hx
    · rw [Bool.not_eq_true] at ha
      rw [getDefinition, List.find?_cons_of_neg _ (by simp [ha]), ← getDefinition, ih]
      constructor
      · rintro ⟨l1, l2, hsplit, hd, hnone⟩
        refine ⟨a :: l1, l2, by rw [hsplit, List.cons_append], hd, ?_⟩
        intro d2 hm
        rcases List.mem_cons.mp hm with hm | hm
        · rw [hm]; exact ha
        · exact hnone d2 hm
      · rintro ⟨l1, l2, hsplit, hd, hnone⟩
        cases l1 with
        | nil =>
          simp only [List.nil_append, List.cons.injEq] at hsplit
          rw [hsplit.1] at ha
          rw [hd] at ha
          exact Bool.noConfusion ha
        | cons x xs =>
          simp only [List.cons_append, List.cons.injEq] at hsplit
          exact ⟨xs, l2, hsplit.2, hd, fun d2 hm =>
            hnone d2 (List.mem_cons_of_mem _ hm)⟩

/-- Counterexample to claim C5 as stated: a type-compatible Definition
registered under the name `"x"` is not matched by a Requirement whose
name is unset — lookup returns nothing, although the claim says a named
Definition matches a Requirement with no name preference. -/
theorem claim_C5_counterexample :
    issuperclass subRefl (PyType.cls 0) 0 = true ∧
    getDefinition subRefl ⟨none, PyType.cls 0, "injector", none⟩
      [⟨some "x", 0⟩] = none := by decide

/-- Claim C6 (corrected).  When no Definition matches, the fallback chain
runs exactly as claimed: plugins in list order, first truthy value wins,
then the requirement's default when present, else a lookup error; and when
a Definition is found and its construction does not raise `LookupError`,
its result is returned untouched — no fallback runs.  But the guard
`except LookupError` around `Injector._get` also catches a `LookupError`
raised by the factory during construction, so a found Definition can be
silently substituted by a fallback (the counterexample), contrary to the
claim's last conjunct. -/
theorem claim_C6_resolution_fallback (factory : Nat → Manager)
    (plugins : List PluginBehavior) (default : Option V) (s : RunState)
    (hp : ∀ p ∈ plugins, ∀ n, p ≠ PluginBehavior.raiseOther n) :
    resolveParamValue false factory plugins default s =
      (specFallbackOrder plugins default, s) ∧
    (∀ r s2, injectorGetSeq factory s = (r, s2) →
      r ≠ Except.error Err.lookup →
      resolveParamValue true factory plugins default s = (r, s2)) := by
  constructor
  · rw [resolveParamValue, injectorGet]
    simp [getExtra_eq_spec plugins default hp]
  · intro r s2 hg hne
    rw [resolveParamValue, injectorGet]
    simp only [if_true, hg]
    cases r with
    | ok v => rfl
    | error e => cases e with
      | lookup => exact absurd rfl hne
      | other n => rfl

/-- Witness for `claim_C6_resolution_fallback`: no definition matches, one
truthy plugin answers. -/
theorem claim_C6_witness :
    (∀ p ∈ [PluginBehavior.ret (some ⟨2, true⟩)], ∀ n,
      p ≠ PluginBehavior.raiseOther n) ∧
    resolveParamValue false (mgrFac (fun _ => none))
        [PluginBehavior.ret (some ⟨2, true⟩)] none ⟨⟨none, none⟩, 0⟩ =
      (specFallbackOrder [PluginBehavior.ret (some ⟨2, true⟩)] none,
        ⟨⟨none, none⟩, 0⟩) :=
  ⟨by intro p hp n; simp only [List.mem_cons, List.not_mem_nil, or_false] at hp
      subst hp; simp,
   (claim_C6_resolution_fallback (mgrFac (fun _ => none))
      [PluginBehavior.ret (some ⟨2, true⟩)] none ⟨⟨none, none⟩, 0⟩
      (by intro p hp n; simp only [List.mem_cons, List.not_mem_nil, or_false] at hp
          subst hp; simp)).1⟩

/-- Counterexample to claim C6 as stated: a Definition is found
(`defnFound = true`) and its construction is attempted (the counter rises
to 1), but the factory raises `LookupError`, which the resolution step
swallows — the fallback plugin's value is returned in place of the found
Definition's instance. -/
theorem claim_C6_counterexample :
    resolveParamValue true (fun _ => ⟨0, Except.error Err.lookup, Except.ok ()⟩)
        [PluginBehavior.ret (some ⟨9, true⟩)] none ⟨⟨none, none⟩, 0⟩ =
      (Except.ok (some ⟨9, true⟩),
       ⟨⟨none, some ⟨0, Except.error Err.lookup, Except.ok ()⟩⟩, 1⟩) := by decide

theorem lookupKw_cons (kv : String × V) (rest : List (String × V)) (n : String) :
    lookupKw (kv :: rest) n =
      if kv.1 == n then some kv.2 else lookupKw rest n := by
  by_cases hk : (kv.1 == n) = true
  · rw [lookupKw, @List.find?_cons_of_pos _ (fun kv => kv.1 == n) kv rest hk,
      if_pos hk]
    rfl
  · rw [Bool.not_eq_true] at hk
    rw [lookupKw, @List.find?_cons_of_neg _ (fun kv => kv.1 == n) kv rest
      (by simp [hk]), if_neg (by simp [hk])]
    rfl

theorem lookupKw_map_ne {n n2 : String} (v : V) (h : ¬ n2 = n)
    (kwargs : List (String × V)) :
    lookupKw (kwargs.map (fun kv => if kv.1 == n then (n, v) else kv)) n2 =
      lookupKw kwargs n2 := by
  have hnn : (n == n2) = false := by
    simp only [beq_eq_false_iff_ne]
    exact fun e => h e.symm
  induction kwargs with
  | nil => rfl
  | cons kv rest ih =>
    rw [List.map_cons]
    by_cases hk : (kv.1 == n) = true
    · have hk2 : kv.1 = n := by simpa using hk
      rw [if_pos hk, lookupKw_cons, lookupKw_cons, hk2]
      simp only [hnn, Bool.false_eq_true, if_false]
      exact ih
    · rw [Bool.not_eq_true] at hk
      rw [if_neg (by simp [hk]), lookupKw_cons, lookupKw_cons]
      by_cases hkv : (kv.1 == n2) = true
      · rw [if_pos hkv, if_pos hkv]
      · rw [Bool.not_eq_true] at hkv
        rw [if_neg (by simp [hkv]), if_neg (by simp [hkv]), ih]

theorem lookupKw_append_one_ne {n n2 : String} (v : V) (h : ¬ n2 = n)
    (kwargs : List (String × V)) :
    lookupKw (kwargs ++ [(n, v)]) n2 = lookupKw kwargs n2 := by
  have hnn : (n == n2) = false := by
    simp only [beq_eq_false_iff_ne]
    exact fun e => h e.symm
  induction kwargs with
  | nil =>
    rw [List.nil_append, lookupKw_cons]
    simp only [hnn, Bool.false_eq_true, if_false]
  | cons kv rest ih =>
    rw [List.cons_append, lookupKw_cons, lookupKw_cons]
    by_cases hkv : (kv.1 == n2) = true
    · rw [if_pos hkv, if_pos hkv]
    · rw [Bool.not_eq_true] at hkv
      rw [if_neg (by simp [hkv]), if_neg (by simp [hkv]), ih]

theorem lookupKw_setKw_ne (kwargs : List (String × V)) (n n2 : String) (v : V)
    (h : ¬ n2 = n) : lookupKw (setKw kwargs n v) n2 = lookupKw kwargs n2 := by
  rw [setKw]
  by_cases hs : ((kwargs.find? (fun kv => kv.1 == n)).isSome) = true
  · rw [if_pos hs]; exact lookupKw_map_ne v h kwargs
  · rw [if_neg hs]; exact lookupKw_append_one_ne v h kwargs

theorem bindLoop_untouched (resolve : Nat → String → V) (args : List V)
    (n : String) :
    ∀ (params : List BParam) (idx : Nat) (kwargs : List (String × V))
      (resolved : List String),
      (∀ q ∈ params, ¬ q.pname = n) →
      lookupKw (bindLoop resolve args params idx kwargs resolved).1 n =
        lookupKw kwargs n ∧
      (n ∈ (bindLoop resolve args params idx kwargs resolved).2 ↔
        n ∈ resolved) := by
  intro params
  induction params with
  | nil => intro idx kwargs resolved h; exact ⟨rfl, Iff.rfl⟩
  | cons q rest ih =>
    intro idx kwargs resolved h
    have hq : ¬ q.pname = n := h q (List.mem_cons_self _ _)
    have hrest : ∀ p ∈ rest, ¬ p.pname = n :=
      fun p hp => h p (List.mem_cons_of_mem _ hp)
    cases hrd : q.reqDefault with
    | none =>
      rw [bindLoop]; simp only [hrd]
      exact ih (idx + 1) kwargs resolved hrest
    | some r =>
      rw [bindLoop]; simp only [hrd]
      cases hsa : suppliedArg args kwargs idx q with
      | some v2 => exact ih (idx + 1) kwargs resolved hrest
      | none =>
        obtain ⟨h1, h2⟩ := ih (idx + 1)
          (setKw kwargs q.pname
            (resolve (orTy r.rtype q.annotation) (orStr r.rname q.pname)))
          (resolved ++ [q.pname]) hrest
        refine ⟨?_, ?_⟩
        · rw [h1, lookupKw_setKw_ne _ _ _ _ (fun e => hq e.symm)]
        · rw [h2]
          constructor
          · intro hm
            rcases List.mem_append.mp hm with hm2 | hm2
            · exact hm2
            · exact absurd (List.mem_singleton.mp hm2) (fun e => hq e.symm)
          · intro hm
            exact List.mem_append.mpr (Or.inl hm)

theorem bindLoop_supplied (resolve : Nat → String → V) (args : List V) :
    ∀ (params : List BParam) (idx : Nat) (kwargs : List (String × V))
      (resolved : List String) (i : Nat) (p : BParam),
      params[i]? = some p →
      (params.map BParam.pname).Nodup →
      p.pname ∉ resolved →
      ((¬ p.kind = PKind.kwOnly ∧ idx + i < args.length) ∨
        (¬ p.kind = PKind.posOnly ∧ ¬ lookupKw kwargs p.pname = none)) →
      lookupKw (bindLoop resolve args params idx kwargs resolved).1 p.pname =
        lookupKw kwargs p.pname ∧
      p.pname ∉ (bindLoop resolve args params idx kwargs resolved).2 := by
  intro params
  induction params with
  | nil => intro idx kwargs resolved i p hi; simp at hi
  | cons q rest ih =>
    intro idx kwargs resolved i p hi hnd hnr hsup
    have hnd1 : q.pname ∉ rest.map BParam.pname := (List.nodup_cons.mp hnd).1
    have hnd2 : (rest.map BParam.pname).Nodup := (List.nodup_cons.mp hnd).2
    cases i with
    | zero =>
      have hqp : q = p := by simpa using hi
      subst hqp
      have hsome : ∃ v2, suppliedArg args kwargs idx q = some v2 := by
        rcases hsup with ⟨hk, hlen⟩ | ⟨hk, hkw⟩
        · have hc : q.kind = PKind.posOnly ∨ q.kind = PKind.posOrKw := by
            cases hkind : q.kind
            · exact Or.inl rfl
            · exact Or.inr rfl
            · exact absurd hkind hk
          have hlen2 : idx < args.length := by omega
          exact ⟨args[idx],
            by rw [suppliedArg]
               simp [hc, List.getElem?_eq_getElem hlen2]⟩
        · cases hkind : q.kind with
          | posOnly => exact absurd hkind hk
          | kwOnly =>
            obtain ⟨v2, hv2⟩ := Option.ne_none_iff_exists'.mp hkw
            exact ⟨v2, by rw [suppliedArg]; simp [hkind, hv2]⟩
          | posOrKw =>
            cases hv : args[idx]? with
            | some v2 => exact ⟨v2, by rw [suppliedArg]; simp [hkind, hv]⟩
            | none =>
              obtain ⟨v2, hv2⟩ := Option.ne_none_iff_exists'.mp hkw
              exact ⟨v2, by rw [suppliedArg]; simp [hkind, hv, hv2]⟩
      obtain ⟨v2, hsa⟩ := hsome
      have hrest : ∀ q2 ∈ rest, ¬ q2.pname = q.pname := by
        intro q2 hm e
        exact hnd1 (e ▸ List.mem_map_of_mem BParam.pname hm)
      have hu := bindLoop_untouched resolve args q.pname rest (idx + 1)
        kwargs resolved hrest
      cases hrd : q.reqDefault with
      | none =>
        rw [bindLoop]; simp only [hrd]
        exact ⟨hu.1, fun hm => hnr (hu.2.mp hm)⟩
      | some r =>
        rw [bindLoop]; simp only [hrd, hsa]
        exact ⟨hu.1, fun hm => hnr (hu.2.mp hm)⟩
    | succ i2 =>
      have hi2 : rest[i2]? = some p := by simpa using hi
      have hpm : p ∈ rest := by
        have := List.getElem?_eq_some.mp hi2
        obtain ⟨hlt, hv⟩ := this
        exact hv ▸ List.getElem_mem hlt
      have hqp : ¬ q.pname = p.pname := by
        intro e
        exact hnd1 (e ▸ List.mem_map_of_mem BParam.pname hpm)
      have hsup2 : ∀ kwargs2 : List (String × V),
          lookupKw kwargs2 p.pname = lookupKw kwargs p.pname →
          ((¬ p.kind = PKind.kwOnly ∧ (idx + 1) + i2 < args.length) ∨
            (¬ p.kind = PKind.posOnly ∧
              ¬ lookupKw kwargs2 p.pname = none)) := by
        intro kwargs2 he
        rcases hsup with ⟨hk, hlen⟩ | ⟨hk, hkw⟩
        · exact Or.inl ⟨hk, by omega⟩
        · exact Or.inr ⟨hk, by rw [he]; exact hkw⟩
      cases hrd : q.reqDefault with
      | none =>
        rw [bindLoop]; simp only [hrd]
        exact ih (idx + 1) kwargs resolved i2 p hi2 hnd2 hnr (hsup2 kwargs rfl)
      | some r =>
        rw [bindLoop]; simp only [hrd]
        cases hsa : suppliedArg args kwargs idx q with
        | some v2 =>
          exact ih (idx + 1) kwargs resolved i2 p hi2 hnd2 hnr (hsup2 kwargs rfl)
        | none =>
          have hkweq : lookupKw
              (setKw kwargs q.pname
                (resolve (orTy r.rtype q.annotation) (orStr r.rname q.pname)))
              p.pname = lookupKw kwargs p.pname :=
            lookupKw_setKw_ne kwargs q.pname p.pname _ (fun e => hqp e.symm)
          have hnr2 : p.pname ∉ resolved ++ [q.pname] := by
            simp only [List.mem_append, List.mem_singleton]
            rintro (hm | hm)
            · exact hnr hm
            · exact hqp hm.symm
          obtain ⟨ha, hb⟩ := ih (idx + 1)
            (setKw kwargs q.pname
              (resolve (orTy r.rtype q.annotation) (orStr r.rname q.pname)))
            (resolved ++ [q.pname]) i2 p hi2 hnd2 hnr2 (hsup2 _ hkweq)
          exact ⟨by rw [ha, hkweq], hb⟩

/-- Claim C8 (confirmed).  For every parameter whose default is a
`Requirement`, when the caller supplied a value for it — positionally
(the kind admits positional passing and the argument tuple reaches its
position) or by keyword (the kind admits keyword passing and the keyword
dictionary holds its name) — the binding step performs no resolution for
that parameter (its name is not in the resolved-parameter record), the
positional arguments are passed through to the wrapped function unchanged,
and the keyword entry for that parameter is exactly what the caller
supplied, so the supplied value is the one the wrapped function
receives. -/
theorem claim_C8_explicit_argument_precedence (resolve : Nat → String → V)
    (params : List BParam) (args : List V) (kwargs : List (String × V))
    (i : Nat) (p : BParam)
    (hi : params[i]? = some p)
    (hnd : (params.map BParam.pname).Nodup)
    (hsup : (¬ p.kind = PKind.kwOnly ∧ i < args.length) ∨
      (¬ p.kind = PKind.posOnly ∧ ¬ lookupKw kwargs p.pname = none)) :
    (injectableCall resolve params args kwargs).1 = args ∧
    lookupKw (injectableCall resolve params args kwargs).2.1 p.pname =
      lookupKw kwargs p.pname ∧
    p.pname ∉ (injectableCall resolve params args kwargs).2.2 := by
  have h := bindLoop_supplied resolve args params 0 kwargs [] i p hi hnd
    (List.not_mem_nil _)
    (by rcases hsup with ⟨hk, hl⟩ | hkw
        · exact Or.inl ⟨hk, by omega⟩
        · exact Or.inr hkw)
  exact ⟨rfl, h.1, h.2⟩

/-- Witness for `claim_C8_explicit_argument_precedence`: a single
injectable parameter supplied positionally by the caller. -/
theorem claim_C8_witness :
    ([⟨"a", 0, PKind.posOrKw, some ⟨none, none⟩⟩] : List BParam)[0]? =
      some ⟨"a", 0, PKind.posOrKw, some ⟨none, none⟩⟩ ∧
    (([⟨"a", 0, PKind.posOrKw, some ⟨none, none⟩⟩] : List BParam).map
      BParam.pname).Nodup ∧
    (¬ (⟨"a", 0, PKind.posOrKw, some ⟨none, none⟩⟩ : BParam).kind =
        PKind.kwOnly ∧ 0 < [some (⟨1, true⟩ : Obj)].length) ∧
    ((injectableCall (fun _ _ => none) [⟨"a", 0, PKind.posOrKw, some ⟨none, none⟩⟩]
        [some ⟨1, true⟩] []).1 = [some ⟨1, true⟩] ∧
      lookupKw (injectableCall (fun _ _ => none)
          [⟨"a", 0, PKind.posOrKw, some ⟨none, none⟩⟩]
          [some ⟨1, true⟩] []).2.1 "a" = lookupKw [] "a" ∧
      "a" ∉ (injectableCall (fun _ _ => none)
          [⟨"a", 0, PKind.posOrKw, some ⟨none, none⟩⟩]
          [some ⟨1, true⟩] []).2.2) :=
  ⟨rfl, by decide, ⟨by decide, by decide⟩,
   claim_C8_explicit_argument_precedence (fun _ _ => none) _ _ [] 0 _ rfl
     (by decide) (Or.inl ⟨by decide, by decide⟩)⟩

/-- Claim C1 (corrected).  For a singleton definition whose factory yields
a truthy instance, the double-checked locking of `Injector._get` — fast
read, acquire the per-definition lock, re-check, construct only if still
not live, release — guarantees under any interleaving of any number of
threads that `enter` runs at most once and that every finished resolution
returned the one constructed instance.  The claim's universal form fails
for factories yielding falsy instances (see the counterexample), because
both liveness checks are truthiness tests. -/
theorem claim_C1_singleton_idempotence (factory : Nat → Obj)
    (ht : (factory 0).truthy = true) (s : Sys) (hr : Reachable factory s) :
    s.enters ≤ 1 ∧
    ∀ tid, (s.threads tid).pc = PC.done →
      (s.threads tid).ret = some (some (factory 0)) := by
  obtain ⟨hslot, -, -, -, hdone⟩ := inv_reachable ht hr
  refine ⟨?_, hdone⟩
  rcases hslot with ⟨-, h⟩ | ⟨-, h⟩ <;> omega

/-- Witness for `claim_C1_singleton_idempotence` at the truthy factory and
the initial state. -/
theorem claim_C1_witness :
    (truthyFac 0).truthy = true ∧
    Reachable truthyFac initSys ∧
    (initSys.enters ≤ 1 ∧
      ∀ tid, (initSys.threads tid).pc = PC.done →
        (initSys.threads tid).ret = some (some (truthyFac 0))) :=
  ⟨rfl, Relation.ReflTransGen.refl,
   claim_C1_singleton_idempotence truthyFac rfl initSys
     Relation.ReflTransGen.refl⟩

/-- Counterexample to claim C1 as stated: with a factory yielding falsy
instances, two threads resolving the same singleton definition one after
the other each run `enter` — a reachable state has two constructions,
refuting "at most one `construct()` call per Definition ever runs". -/
theorem claim_C1_counterexample :
    ∃ s : Sys, Reachable falsyFac s ∧ s.enters = 2 := by
  exact ⟨_,
    Relation.ReflTransGen.head (Step.fastMiss 0 rfl rfl)
      (Relation.ReflTransGen.head (Step.lockAcq 0 (by decide) rfl)
      (Relation.ReflTransGen.head (Step.checkDead 0 (by decide) rfl)
      (Relation.ReflTransGen.head (Step.enterRun 0 (by decide))
      (Relation.ReflTransGen.head (Step.unlockRun 0 (by decide))
      (Relation.ReflTransGen.head (Step.fastMiss 1 (by decide) (by decide))
      (Relation.ReflTransGen.head (Step.lockAcq 1 (by decide) (by decide))
      (Relation.ReflTransGen.head (Step.checkDead 1 (by decide) (by decide))
      (Relation.ReflTransGen.head (Step.enterRun 1 (by decide))
      Relation.ReflTransGen.refl)))))))),
    rfl⟩

end Ioclib
